import Mathlib

/-!
Verification of the FlameLink core against its specification.

The embedding models, from the repository source:
* the claim-gate HTTP handlers `POST /api/claim/init` and `POST /api/claim`
  (in-memory `Map` of claim records, validation, token-hash comparison,
  lazy expiry, decrement-and-delete);
* the XOR key splitter (`splitKeyXor`, `xorShares` in `lib/crypto.ts`);
* text encryption round-trip (`encryptSecret` / `decryptSecret`), with the
  platform AES-GCM primitive abstracted as a pair of functions and the
  platform `TextEncoder`/`TextDecoder` modelled as UTF-8 on Unicode
  scalar values;
* file framing (`encryptFile` / `decryptFile` / `isEncryptedFile`), with
  the platform `JSON.stringify`/`JSON.parse` of the metadata object
  abstracted as a pair of functions.

JavaScript numbers reaching the claim-gate validation (`maxUses`,
`ttlSeconds`, timestamps) are modelled as rationals: every numeric value
the validation branches can distinguish (including non-integral ones such
as 2.5, which `typeof x === 'number'` accepts) is represented exactly.
-/

namespace Flamelink

/-- A JSON value as far as the claim-gate validation observes it: a number
(`typeof x === 'number'`), or some non-numeric value.  Absence of a field is
modelled by `Option.none` at use sites. -/
inductive JsVal where
  | num (q : ℚ)
  | nonNum
deriving DecidableEq

/-- One record of the in-memory claim map, from the store declaration
`Map<string, { share2; tokenHash; expiresAt; maxUses; usesRemaining }>` in the
route files.  `share2` and `tokenHash` are strings; the numeric fields are
JavaScript numbers, modelled as rationals. -/
structure ClaimRecord where
  share2 : String
  tokenHash : String
  expiresAt : ℚ
  maxUses : ℚ
  usesRemaining : ℚ
deriving DecidableEq

/-- The claim map `store.__fl_claims`, modelled as an association list with
unique keys (a JavaScript `Map`). -/
abbrev Store := List (String × ClaimRecord)

/-- `Map.get`. -/
def storeGet : Store → String → Option ClaimRecord
  | [], _ => none
  | (k, v) :: t, key => if k = key then some v else storeGet t key

/-- `Map.set`: replaces the binding of the key if present, otherwise adds it. -/
def storeSet : Store → String → ClaimRecord → Store
  | [], key, v => [(key, v)]
  | (k, w) :: t, key, v => if k = key then (key, v) :: t else (k, w) :: storeSet t key v

/-- `Map.delete`: removes the binding of the key. -/
def storeDel : Store → String → Store
  | [], _ => []
  | (k, v) :: t, key => if k = key then storeDel t key else (k, v) :: storeDel t key

/-- The `maxUses` validation of `POST /api/claim/init`:
`typeof maxUses === 'number' && maxUses >= 1 && maxUses <= 5 ? maxUses : 1`,
after the destructuring default `maxUses = 1` (which also lands on `1`). -/
def validMaxUses : Option JsVal → ℚ
  | some (.num q) => if 1 ≤ q ∧ q ≤ 5 then q else 1
  | _ => 1

/-- The `ttlSeconds` validation of `POST /api/claim/init`:
`typeof ttlSeconds === 'number' && ttlSeconds > 0 ? ttlSeconds : 3600`. -/
def validTtl : Option JsVal → ℚ
  | some (.num q) => if 0 < q then q else 3600
  | _ => 3600

/-- Outcome of `POST /api/claim/init`. -/
inductive InitResult where
  | badRequest
  | ok (claimId token : String)
deriving DecidableEq

/-- Outcome of `POST /api/claim`, one constructor per response of the route:
400, 404, 409, 410, 401, and the success payload
`{ share2B64Url, usesRemaining, maxUses }`. -/
inductive ClaimResult where
  | invalidRequest
  | notFound
  | exhausted
  | expired
  | unauthorized
  | success (share2 : String) (usesRemaining maxUses : ℚ)
deriving DecidableEq

/-- `POST /api/claim/init`.  The randomness (`claimId`, `token`) and the clock
(`now = Date.now()`) are passed in as parameters; `hash` stands for
`sha256Base64Url`.  Rejects a missing/empty share (`!share2B64Url`), validates
`maxUses` and `ttlSeconds`, and stores the record with
`usesRemaining = maxUses` and `expiresAt = now + ttl * 1000`, keeping
`hash token` rather than the raw token. -/
def init (hash : String → String) (share2B64Url : String)
    (ttlSeconds maxUses : Option JsVal) (now : ℚ)
    (claimId token : String) (s : Store) : Store × InitResult :=
  if share2B64Url = "" then (s, .badRequest)
  else
    (storeSet s claimId
      { share2 := share2B64Url
        tokenHash := hash token
        expiresAt := now + validTtl ttlSeconds * 1000
        maxUses := validMaxUses maxUses
        usesRemaining := validMaxUses maxUses },
     .ok claimId token)

/-- `POST /api/claim`, executed sequentially (the whole handler as one atomic
step; the interleaved version is modelled separately below).  Mirrors the
route body: falsy-argument check, lookup, exhausted check, lazy expiry
(`Date.now() > entry.expiresAt`, deleting the record), token-hash comparison,
then decrement-and-delete (or decrement-and-set). -/
def claim (hash : String → String) (claimId token : String) (now : ℚ)
    (s : Store) : Store × ClaimResult :=
  if claimId = "" ∨ token = "" then (s, .invalidRequest)
  else
    match storeGet s claimId with
    | none => (s, .notFound)
    | some e =>
      if e.usesRemaining ≤ 0 then (s, .exhausted)
      else if e.expiresAt < now then (storeDel s claimId, .expired)
      else if hash token ≠ e.tokenHash then (s, .unauthorized)
      else
        let e' : ClaimRecord := { e with usesRemaining := e.usesRemaining - 1 }
        if e'.usesRemaining ≤ 0 then
          (storeDel s claimId, .success e'.share2 e'.usesRemaining e'.maxUses)
        else
          (storeSet s claimId e', .success e'.share2 e'.usesRemaining e'.maxUses)

theorem storeGet_storeSet_self (s : Store) (k : String) (v : ClaimRecord) :
    storeGet (storeSet s k v) k = some v := by
  induction s with
  | nil => simp [storeSet, storeGet]
  | cons hd t ih =>
    obtain ⟨k', w⟩ := hd
    by_cases h : k' = k <;> simp [storeSet, storeGet, h, ih]

theorem storeGet_storeDel_self (s : Store) (k : String) :
    storeGet (storeDel s k) k = none := by
  induction s with
  | nil => simp [storeDel, storeGet]
  | cons hd t ih =>
    obtain ⟨k', w⟩ := hd
    by_cases h : k' = k <;> simp [storeDel, storeGet, h, ih]

theorem mem_storeSet {k : String} {v : ClaimRecord} {kv : String × ClaimRecord} :
    ∀ {s : Store}, kv ∈ storeSet s k v → kv ∈ s ∨ kv = (k, v) := by
  intro s
  induction s with
  | nil =>
    intro h
    simp only [storeSet, List.mem_singleton] at h
    exact Or.inr h
  | cons hd t ih =>
    obtain ⟨k', w⟩ := hd
    intro h
    by_cases hk : k' = k
    · simp only [storeSet, if_pos hk, List.mem_cons] at h
      rcases h with h | h
      · exact Or.inr h
      · exact Or.inl (List.mem_cons_of_mem _ h)
    · simp only [storeSet, if_neg hk, List.mem_cons] at h
      rcases h with h | h
      · exact Or.inl (by simp [h])
      · rcases ih h with h' | h'
        · exact Or.inl (List.mem_cons_of_mem _ h')
        · exact Or.inr h'

theorem mem_storeDel {k : String} {kv : String × ClaimRecord} :
    ∀ {s : Store}, kv ∈ storeDel s k → kv ∈ s := by
  intro s
  induction s with
  | nil =>
    intro h
    simp [storeDel] at h
  | cons hd t ih =>
    obtain ⟨k', w⟩ := hd
    intro h
    by_cases hk : k' = k
    · simp only [storeDel, if_pos hk] at h
      exact List.mem_cons_of_mem _ (ih h)
    · simp only [storeDel, if_neg hk, List.mem_cons] at h
      rcases h with h | h
      · simp [h]
      · exact List.mem_cons_of_mem _ (ih h)

theorem storeGet_mem {k : String} {v : ClaimRecord} :
    ∀ {s : Store}, storeGet s k = some v → (k, v) ∈ s := by
  intro s
  induction s with
  | nil =>
    intro h
    simp [storeGet] at h
  | cons hd t ih =>
    obtain ⟨k', w⟩ := hd
    intro h
    by_cases hk : k' = k
    · simp only [storeGet, if_pos hk, Option.some.injEq] at h
      subst hk
      subst h
      simp
    · simp only [storeGet, if_neg hk] at h
      exact List.mem_cons_of_mem _ (ih h)

theorem claim_eq_success (hash : String → String) {s : Store} {claimId token : String}
    {now : ℚ} {e : ClaimRecord} (hcid : claimId ≠ "") (htok : token ≠ "")
    (hget : storeGet s claimId = some e) (huses : 0 < e.usesRemaining)
    (hexp : ¬ e.expiresAt < now) (htk : hash token = e.tokenHash) :
    claim hash claimId token now s =
      (if e.usesRemaining - 1 ≤ 0 then storeDel s claimId
       else storeSet s claimId { e with usesRemaining := e.usesRemaining - 1 },
       ClaimResult.success e.share2 (e.usesRemaining - 1) e.maxUses) := by
  simp only [claim, hcid, htok, hget, not_le.mpr huses, hexp, htk]
  simp [claim, hcid, htok, hget, not_le.mpr huses, hexp, htk]
  split_ifs <;> simp

/-- C3: a `claim` with the correct `claimId` but a token whose hash differs
from the stored `tokenHash` answers `unauthorized` (HTTP 401) and returns the
store exactly unchanged: no field of any record, in particular
`usesRemaining`, is modified.  The hypotheses restrict to a stored, unexpired
record with uses remaining, which is every reachable stored record
(`gate_store_invariant`). -/
theorem wrong_token_unauthorized_store_unchanged
    (hash : String → String) (s : Store) (claimId token : String) (now : ℚ)
    (e : ClaimRecord) (hcid : claimId ≠ "") (htok : token ≠ "")
    (hget : storeGet s claimId = some e) (huses : 0 < e.usesRemaining)
    (hexp : ¬ e.expiresAt < now) (hmm : hash token ≠ e.tokenHash) :
    claim hash claimId token now s = (s, ClaimResult.unauthorized) := by
  simp [claim, hcid, htok, hget, not_le.mpr huses, hexp, hmm]

theorem wrong_token_unauthorized_store_unchanged_witness :
    claim id "c" "t1" 0 [("c", ⟨"sh", "t0", 100, 1, 1⟩)] =
      ([("c", ⟨"sh", "t0", 100, 1, 1⟩)], ClaimResult.unauthorized) :=
  wrong_token_unauthorized_store_unchanged id _ "c" "t1" 0 ⟨"sh", "t0", 100, 1, 1⟩
    (by decide) (by decide) (by simp [storeGet]) (by norm_num) (by norm_num) (by decide)

/-- C4 (amended): a `claim` on a stored record with uses remaining whose
expiry has strictly passed (`expiresAt < now`, i.e. `Date.now() > expiresAt`)
fails `expired` (HTTP 410) and deletes the record, regardless of the token;
the held share is not returned. -/
theorem claim_strictly_after_expiry_expired
    (hash : String → String) (s : Store) (claimId token : String) (now : ℚ)
    (e : ClaimRecord) (hcid : claimId ≠ "") (htok : token ≠ "")
    (hget : storeGet s claimId = some e) (huses : 0 < e.usesRemaining)
    (hexp : e.expiresAt < now) :
    claim hash claimId token now s = (storeDel s claimId, ClaimResult.expired) := by
  simp [claim, hcid, htok, hget, not_le.mpr huses, hexp]

theorem claim_strictly_after_expiry_expired_witness :
    claim id "c" "t" 101 [("c", ⟨"sh", "t", 100, 1, 1⟩)] = ([], ClaimResult.expired) :=
  claim_strictly_after_expiry_expired id _ "c" "t" 101 ⟨"sh", "t", 100, 1, 1⟩
    (by decide) (by decide) (by simp [storeGet]) (by norm_num) (by norm_num)

/-- C4 (counterexample): at the boundary instant `now = expiresAt` the code
does **not** expire a record — the check is the strict `Date.now() >
entry.expiresAt` — so a correct-token claim succeeds and releases the share,
refuting the claim that every call with `now ≥ expiresAt` fails expired. -/
theorem claim_at_exact_expiry_succeeds_cex :
    claim id "c" "t" 100 [("c", ⟨"sh", "t", 100, 1, 1⟩)] = ([], ClaimResult.success "sh" 0 1) ∧
    ClaimResult.success "sh" 0 1 ≠ ClaimResult.expired := by
  constructor
  · norm_num [claim, storeGet, storeDel, show ("c" : String) ≠ "" from by decide,
      show ("t" : String) ≠ "" from by decide]
  · exact fun h => ClaimResult.noConfusion h

theorem one_le_validMaxUses (v : Option JsVal) : 1 ≤ validMaxUses v := by
  cases v with
  | none => norm_num [validMaxUses]
  | some x =>
    cases x with
    | num q =>
      simp only [validMaxUses]
      split_ifs with h
      · exact h.1
      · norm_num
    | nonNum => norm_num [validMaxUses]

theorem validMaxUses_le_five (v : Option JsVal) : validMaxUses v ≤ 5 := by
  cases v with
  | none => norm_num [validMaxUses]
  | some x =>
    cases x with
    | num q =>
      simp only [validMaxUses]
      split_ifs with h
      · exact h.2
      · norm_num
    | nonNum => norm_num [validMaxUses]

theorem validTtl_pos (v : Option JsVal) : 0 < validTtl v := by
  cases v with
  | none => norm_num [validTtl]
  | some x =>
    cases x with
    | num q =>
      simp only [validTtl]
      split_ifs with h
      · exact h
      · norm_num
    | nonNum => norm_num [validTtl]

/-- C5 (amended): `init` with a non-empty held share stores, under `claimId`,
a record holding the share, the **hash** of the token (not the raw token),
`expiresAt = now + ttl·1000` for a positive validated ttl (the supplied
`ttlSeconds` when it is a positive number, else the default 3600),
`usesRemaining = maxUses`, and a validated `maxUses` that is a number in the
range `[1, 5]` (the supplied value when it is a number in that range — not
necessarily an integer — else the default 1); the response returns the
`claimId` and the raw token. -/
theorem init_postcondition (hash : String → String) (share : String)
    (ttl mu : Option JsVal) (now : ℚ) (claimId token : String) (s : Store)
    (hshare : share ≠ "") :
    (init hash share ttl mu now claimId token s).2 = InitResult.ok claimId token ∧
    storeGet (init hash share ttl mu now claimId token s).1 claimId =
      some { share2 := share, tokenHash := hash token,
             expiresAt := now + validTtl ttl * 1000,
             maxUses := validMaxUses mu, usesRemaining := validMaxUses mu } ∧
    1 ≤ validMaxUses mu ∧ validMaxUses mu ≤ 5 ∧ 0 < validTtl ttl := by
  refine ⟨by simp [init, hshare], ?_, one_le_validMaxUses mu, validMaxUses_le_five mu,
    validTtl_pos ttl⟩
  simp [init, hshare, storeGet_storeSet_self]

theorem init_postcondition_witness :
    (init id "sh" (some (JsVal.num 60)) (some (JsVal.num 3)) 0 "c" "t" []).2 =
      InitResult.ok "c" "t" ∧
    storeGet (init id "sh" (some (JsVal.num 60)) (some (JsVal.num 3)) 0 "c" "t" []).1 "c" =
      some { share2 := "sh", tokenHash := "t",
             expiresAt := 0 + validTtl (some (JsVal.num 60)) * 1000,
             maxUses := validMaxUses (some (JsVal.num 3)),
             usesRemaining := validMaxUses (some (JsVal.num 3)) } ∧
    1 ≤ validMaxUses (some (JsVal.num 3)) ∧ validMaxUses (some (JsVal.num 3)) ≤ 5 ∧
    0 < validTtl (some (JsVal.num 60)) :=
  init_postcondition id "sh" (some (JsVal.num 60)) (some (JsVal.num 3)) 0 "c" "t" []
    (by decide)

/-- C5 (counterexample): the validation `typeof maxUses === 'number' &&
maxUses >= 1 && maxUses <= 5` accepts the non-integral number 2.5, which is
then stored as `maxUses` (and `usesRemaining`) verbatim, refuting the claim
that the stored `maxUses` is always an integer in 1–5. -/
theorem init_nonintegral_maxUses_cex :
    storeGet (init id "sh" none (some (JsVal.num (5/2))) 0 "c" "t" []).1 "c" =
      some ⟨"sh", "t", 3600000, 5/2, 5/2⟩ ∧
    ¬ ∃ n : ℤ, ((5 : ℚ)/2) = (n : ℚ) := by
  constructor
  · norm_num [init, validMaxUses, validTtl, storeSet, storeGet]
  · rintro ⟨n, hn⟩
    rw [div_eq_iff (by norm_num : (2 : ℚ) ≠ 0)] at hn
    have h5 : (5 : ℤ) = n * 2 := by exact_mod_cast hn
    omega

/-- Sequential claims at the given sequence of times, collecting the
responses; each call is the `POST /api/claim` handler run to completion. -/
def claimSeq (hash : String → String) (cid tok : String) : List ℚ → Store → Store × List ClaimResult
  | [], s => (s, [])
  | t :: ts, s =>
    ((claimSeq hash cid tok ts (claim hash cid tok t s).1).1,
     (claim hash cid tok t s).2 :: (claimSeq hash cid tok ts (claim hash cid tok t s).1).2)

/-- C1 (amended): after `init` with `maxUses = 3`, three sequential
correct-token claims before expiry succeed with `usesRemaining` 2, 1, 0; the
third deletes the record, so a fourth call answers `notFound` (HTTP 404), not
`exhausted` — the exhausted response is reachable only for a record that is
still stored with `usesRemaining ≤ 0`, which never happens. -/
theorem multi_use_claims_then_notFound
    (hash : String → String) (share cid tok : String) (now ttlq t1 t2 t3 t4 : ℚ)
    (hshare : share ≠ "") (hcid : cid ≠ "") (htok : tok ≠ "")
    (h1 : ¬ now + validTtl (some (JsVal.num ttlq)) * 1000 < t1)
    (h2 : ¬ now + validTtl (some (JsVal.num ttlq)) * 1000 < t2)
    (h3 : ¬ now + validTtl (some (JsVal.num ttlq)) * 1000 < t3) :
    (claimSeq hash cid tok [t1, t2, t3, t4]
        (init hash share (some (JsVal.num ttlq)) (some (JsVal.num 3)) now cid tok []).1).2 =
      [ClaimResult.success share 2 3, ClaimResult.success share 1 3,
       ClaimResult.success share 0 3, ClaimResult.notFound] := by
  have hval : validMaxUses (some (JsVal.num 3)) = (3 : ℚ) := by norm_num [validMaxUses]
  norm_num [claimSeq, claim, init, hval, storeGet, storeSet, storeDel, hshare, hcid, htok,
    h1, h2, h3]

theorem multi_use_claims_then_notFound_witness :
    (claimSeq id "c" "t" [1, 2, 3, 4]
        (init id "sh" (some (JsVal.num 60)) (some (JsVal.num 3)) 0 "c" "t" []).1).2 =
      [ClaimResult.success "sh" 2 3, ClaimResult.success "sh" 1 3,
       ClaimResult.success "sh" 0 3, ClaimResult.notFound] :=
  multi_use_claims_then_notFound id "sh" "c" "t" 0 60 1 2 3 4 (by decide) (by decide)
    (by decide) (by norm_num [validTtl]) (by norm_num [validTtl]) (by norm_num [validTtl])

/-- C1 (counterexample): in the concrete `ttl = 60`, `maxUses = 3` scenario
the fourth sequential correct-token claim answers `notFound`, because the
third claim deleted the record; it does not answer `exhausted` as claimed. -/
theorem fourth_claim_not_exhausted_cex :
    (claimSeq id "c" "t" [1, 2, 3, 4]
        (init id "sh" (some (JsVal.num 60)) (some (JsVal.num 3)) 0 "c" "t" []).1).2.getLast? =
      some ClaimResult.notFound ∧
    ClaimResult.notFound ≠ ClaimResult.exhausted := by
  constructor
  · have hval : validMaxUses (some (JsVal.num 3)) = (3 : ℚ) := by norm_num [validMaxUses]
    norm_num [claimSeq, claim, init, hval, validTtl, storeGet, storeSet, storeDel,
      show ("c" : String) ≠ "" from by decide, show ("t" : String) ≠ "" from by decide,
      show ("sh" : String) ≠ "" from by decide]
  · exact fun h => ClaimResult.noConfusion h

/-- An operation on the claim store: one `POST /api/claim/init` or one
sequentially executed `POST /api/claim`, with its inputs, clock reading and
(for `init`) generated identifiers. -/
inductive GateOp where
  | opInit (share : String) (ttl mu : Option JsVal) (now : ℚ) (cid tok : String)
  | opClaim (cid tok : String) (now : ℚ)

/-- Effect of one operation on the store. -/
def stepOp (hash : String → String) (s : Store) : GateOp → Store
  | .opInit share ttl mu now cid tok => (init hash share ttl mu now cid tok s).1
  | .opClaim cid tok now => (claim hash cid tok now s).1

/-- Run a sequence of operations against the store. -/
def runOps (hash : String → String) (ops : List GateOp) (s : Store) : Store :=
  ops.foldl (stepOp hash) s

/-- The claim-store invariant: every stored record has
`0 < usesRemaining ≤ maxUses ≤ 5`; in particular no stored record is
exhausted. -/
def StoreInv (s : Store) : Prop :=
  ∀ kv ∈ s, 0 < kv.2.usesRemaining ∧ kv.2.usesRemaining ≤ kv.2.maxUses ∧ kv.2.maxUses ≤ 5

theorem storeInv_init (hash : String → String) {s : Store} (h : StoreInv s)
    (share : String) (ttl mu : Option JsVal) (now : ℚ) (cid tok : String) :
    StoreInv (init hash share ttl mu now cid tok s).1 := by
  by_cases hshare : share = ""
  · simpa [init, hshare] using h
  · simp only [init, if_neg hshare]
    intro kv hkv
    rcases mem_storeSet hkv with hkv' | hkv'
    · exact h kv hkv'
    · subst hkv'
      exact ⟨lt_of_lt_of_le zero_lt_one (one_le_validMaxUses mu), le_refl _,
        validMaxUses_le_five mu⟩

theorem storeInv_claim (hash : String → String) {s : Store} (h : StoreInv s)
    (cid tok : String) (now : ℚ) :
    StoreInv (claim hash cid tok now s).1 := by
  by_cases hbad : cid = "" ∨ tok = ""
  · simpa [claim, hbad] using h
  · cases hget : storeGet s cid with
    | none => simpa [claim, hbad, hget] using h
    | some e =>
      by_cases hu : e.usesRemaining ≤ 0
      · simpa [claim, hbad, hget, hu] using h
      · by_cases hexp : e.expiresAt < now
        · have hred : (claim hash cid tok now s).1 = storeDel s cid := by
            simp [claim, hbad, hget, hu, hexp]
          rw [hred]
          exact fun kv hkv => h kv (mem_storeDel hkv)
        · by_cases htk : hash tok ≠ e.tokenHash
          · simpa [claim, hbad, hget, hu, hexp, htk] using h
          · push_neg at htk
            by_cases hz : e.usesRemaining - 1 ≤ 0
            · rw [claim_eq_success hash (fun hc => hbad (Or.inl hc)) (fun ht => hbad (Or.inr ht))
                hget (not_le.mp hu) hexp htk]
              simp only [if_pos hz]
              exact fun kv hkv => h kv (mem_storeDel hkv)
            · rw [claim_eq_success hash (fun hc => hbad (Or.inl hc)) (fun ht => hbad (Or.inr ht))
                hget (not_le.mp hu) hexp htk]
              simp only [if_neg hz]
              intro kv hkv
              rcases mem_storeSet hkv with hkv' | hkv'
              · exact h kv hkv'
              · subst hkv'
                obtain ⟨hu1, hu2, hu3⟩ := h (cid, e) (storeGet_mem hget)
                have hu2' : e.usesRemaining ≤ e.maxUses := hu2
                have hu3' : e.maxUses ≤ 5 := hu3
                refine ⟨not_le.mp hz, ?_, hu3'⟩
                show e.usesRemaining - 1 ≤ e.maxUses
                linarith

theorem storeInv_runOps (hash : String → String) (ops : List GateOp) :
    ∀ {s : Store}, StoreInv s → StoreInv (runOps hash ops s) := by
  induction ops with
  | nil => intro s h; simpa [runOps] using h
  | cons op t ih =>
    intro s h
    have hstep : StoreInv (stepOp hash s op) := by
      cases op with
      | opInit share ttl mu now cid tok => exact storeInv_init hash h share ttl mu now cid tok
      | opClaim cid tok now => exact storeInv_claim hash h cid tok now
    simpa [runOps, List.foldl_cons] using ih hstep

/-- C10: (1) starting from the empty store, after any sequence of `init` and
sequentially executed `claim` operations every stored record satisfies
`0 < usesRemaining ≤ maxUses ≤ 5` — a record is deleted in the very step that
drops its `usesRemaining` to (or below) zero, so no record is ever stored
exhausted; and (2) once a claim fully consumes a record (success with
resulting `usesRemaining ≤ 0`), any later claim for that `claimId` against
the resulting store answers `notFound`, not `exhausted`. -/
theorem gate_store_invariant :
    (∀ (hash : String → String) (ops : List GateOp), StoreInv (runOps hash ops [])) ∧
    (∀ (hash : String → String) (cid tok tok' : String) (now now' : ℚ) (s s' : Store)
       (sh : String) (u m : ℚ), tok' ≠ "" →
       claim hash cid tok now s = (s', ClaimResult.success sh u m) → u ≤ 0 →
       (claim hash cid tok' now' s').2 = ClaimResult.notFound) := by
  constructor
  · intro hash ops
    exact storeInv_runOps hash ops (by intro kv hkv; simp at hkv)
  · intro hash cid tok tok' now now' s s' sh u m htok' hcl hu
    by_cases hbad : cid = "" ∨ tok = ""
    · rw [claim, if_pos hbad] at hcl
      exact absurd (congrArg Prod.snd hcl) (by simp)
    · cases hget : storeGet s cid with
      | none =>
        rw [claim, if_neg hbad, hget] at hcl
        exact absurd (congrArg Prod.snd hcl) (by simp)
      | some e =>
        by_cases hu0 : e.usesRemaining ≤ 0
        · rw [claim, if_neg hbad, hget] at hcl
          simp only [if_pos hu0] at hcl
          exact absurd (congrArg Prod.snd hcl) (by simp)
        · by_cases hexp : e.expiresAt < now
          · rw [claim, if_neg hbad, hget] at hcl
            simp only [if_neg hu0, if_pos hexp] at hcl
            exact absurd (congrArg Prod.snd hcl) (by simp)
          · by_cases htk : hash tok ≠ e.tokenHash
            · rw [claim, if_neg hbad, hget] at hcl
              simp only [if_neg hu0, if_neg hexp, if_pos htk] at hcl
              exact absurd (congrArg Prod.snd hcl) (by simp)
            · push_neg at htk
              rw [claim_eq_success hash (fun hc => hbad (Or.inl hc))
                (fun ht => hbad (Or.inr ht)) hget (not_le.mp hu0) hexp htk] at hcl
              by_cases hz : e.usesRemaining - 1 ≤ 0
              · rw [if_pos hz] at hcl
                have hs' : s' = storeDel s cid := (Prod.mk.injEq _ _ _ _ ▸ hcl).1.symm
                subst hs'
                have hcid : cid ≠ "" := fun hc => hbad (Or.inl hc)
                simp [claim, hcid, htok', storeGet_storeDel_self]
              · rw [if_neg hz] at hcl
                have hu' : u = e.usesRemaining - 1 :=
                  by
                    have := (Prod.mk.injEq _ _ _ _ ▸ hcl).2
                    cases this
                    rfl
                exact absurd (hu' ▸ hu) hz

theorem gate_store_invariant_witness :
    StoreInv (runOps id [] []) ∧
    (claim id "c" "x" 0 []).2 = ClaimResult.notFound :=
  ⟨gate_store_invariant.1 id [],
   gate_store_invariant.2 id "c" "t" "x" 0 0 [("c", ⟨"sh", "t", 100, 1, 1⟩)] [] "sh" 0 1
     (by decide)
     (by norm_num [claim, storeGet, storeDel, show ("c" : String) ≠ "" from by decide,
       show ("t" : String) ≠ "" from by decide])
     (by norm_num)⟩

/-!
Interleaved execution of two `POST /api/claim` requests for the same
`claimId`.  In the Node runtime each request body is a sequence of
synchronous segments separated by `await` points.  The handler has an
`await sha256Base64Url(token)` between the lookup-and-checks block and the
decrement-and-delete block, so a request executes in two atomic phases:

* phase 1: `store.get(claimId)`, the `usesRemaining <= 0` check and the
  expiry check (which may delete the record), then suspension on the hash;
* phase 2: token-hash comparison, `entry.usesRemaining = entry.usesRemaining
  - 1`, delete-or-set, and the response built from the entry object.

Crucially, `entry` is a *reference* to the one record object in the map, so
a mutation by one request is observed by the other.  The model keeps that
single shared object (`obj`) plus a map-membership bit (`present`) in the
scheduler state; each request keeps a program counter (`checked`: passed
phase 1) and its response once finished. -/

/-- Scheduler state for two racing claim requests on one `claimId`. -/
structure RaceState where
  present : Bool
  obj : ClaimRecord
  aChecked : Bool
  bChecked : Bool
  aResp : Option ClaimResult
  bResp : Option ClaimResult
deriving DecidableEq

/-- One atomic phase of the claim handler, acting on the shared map bit and
the shared record object.  Returns the request's updated program counter and
response together with the updated shared state. -/
def stepPhase (hash : String → String) (token : String) (now : ℚ)
    (checked : Bool) (resp : Option ClaimResult) (present : Bool) (obj : ClaimRecord) :
    Bool × Option ClaimResult × Bool × ClaimRecord :=
  match resp with
  | some r => (checked, some r, present, obj)
  | none =>
    if checked = false then
      if present = false then (false, some .notFound, present, obj)
      else if obj.usesRemaining ≤ 0 then (false, some .exhausted, present, obj)
      else if obj.expiresAt < now then (false, some .expired, false, obj)
      else (true, none, present, obj)
    else
      if hash token ≠ obj.tokenHash then (true, some .unauthorized, present, obj)
      else
        let obj' : ClaimRecord := { obj with usesRemaining := obj.usesRemaining - 1 }
        if obj'.usesRemaining ≤ 0 then
          (true, some (.success obj'.share2 obj'.usesRemaining obj'.maxUses), false, obj')
        else
          (true, some (.success obj'.share2 obj'.usesRemaining obj'.maxUses), true, obj')

/-- Run one scheduling step: `who = true` advances request A by one phase,
`who = false` advances request B. -/
def raceStep (hash : String → String) (tokA tokB : String) (now : ℚ)
    (st : RaceState) (who : Bool) : RaceState :=
  if who then
    let r := stepPhase hash tokA now st.aChecked st.aResp st.present st.obj
    { st with aChecked := r.1, aResp := r.2.1, present := r.2.2.1, obj := r.2.2.2 }
  else
    let r := stepPhase hash tokB now st.bChecked st.bResp st.present st.obj
    { st with bChecked := r.1, bResp := r.2.1, present := r.2.2.1, obj := r.2.2.2 }

/-- Run a schedule (list of which request moves next). -/
def raceRun (hash : String → String) (tokA tokB : String) (now : ℚ)
    (sched : List Bool) (st : RaceState) : RaceState :=
  sched.foldl (raceStep hash tokA tokB now) st

/-- C2 (bug demonstration): for a `maxUses = 1` record, under the interleaving
A-phase 1, B-phase 1, A-phase 2, B-phase 2 — available because of the `await
sha256Base64Url(token)` separating the `usesRemaining` check from the
decrement — **both** correct-token callers pass the check before either
decrements, and both responses carry the held share (B even reports
`usesRemaining = -1`).  This contradicts the specified single-release
guarantee that exactly one caller receives the share and the other observes
`exhausted`. -/
theorem race_both_callers_receive_share :
    (raceRun id "t" "t" 0 [true, false, true, false]
        ⟨true, ⟨"sh", "t", 100, 1, 1⟩, false, false, none, none⟩).aResp =
      some (ClaimResult.success "sh" 0 1) ∧
    (raceRun id "t" "t" 0 [true, false, true, false]
        ⟨true, ⟨"sh", "t", 100, 1, 1⟩, false, false, none, none⟩).bResp =
      some (ClaimResult.success "sh" (-1) 1) := by
  constructor <;>
    norm_num [raceRun, raceStep, stepPhase]

/-!
Key splitter (`splitKeyXor` / `xorShares` in `lib/crypto.ts`).  Byte arrays
(`Uint8Array`) are lists of naturals; each store into a `Uint8Array` slot
truncates modulo 256, written explicitly. -/

/-- A list of bytes: every element fits in 8 bits. -/
def isBytes (l : List ℕ) : Prop := ∀ b ∈ l, b < 256

/-- `splitKeyXor`: the random `share1` (drawn by `crypto.getRandomValues` at
the key's length) is passed in as a parameter; `share2[i] = key[i] ^
share1[i]`. -/
def splitKeyXor (keyRaw share1 : List ℕ) : List ℕ × List ℕ :=
  (share1, List.zipWith (fun k s => (k ^^^ s) % 256) keyRaw share1)

/-- `xorShares`: throws on mismatched lengths, else XORs pointwise. -/
def xorShares (share1 share2 : List ℕ) : Except String (List ℕ) :=
  if share1.length ≠ share2.length then Except.error "Mismatched key share lengths"
  else Except.ok (List.zipWith (fun a b => (a ^^^ b) % 256) share1 share2)

theorem xor_mod_eq {a b : ℕ} (ha : a < 256) (hb : b < 256) : (a ^^^ b) % 256 = a ^^^ b := by
  have h : a ^^^ b < 256 := by
    have := Nat.xor_lt_two_pow (n := 8) (by simpa using ha) (by simpa using hb)
    simpa using this
  exact Nat.mod_eq_of_lt h

theorem zipWith_xor_cancel :
    ∀ (key share1 : List ℕ), share1.length = key.length → isBytes key → isBytes share1 →
      List.zipWith (fun a b => (a ^^^ b) % 256) share1
        (List.zipWith (fun k s => (k ^^^ s) % 256) key share1) = key := by
  intro key
  induction key with
  | nil =>
    intro share1 hlen _ _
    simp
  | cons k kt ih =>
    intro share1 hlen hk hs
    cases share1 with
    | nil => simp at hlen
    | cons s st =>
      have hk0 : k < 256 := hk k (by simp)
      have hs0 : s < 256 := hs s (by simp)
      have hkt : isBytes kt := fun b hb => hk b (List.mem_cons_of_mem _ hb)
      have hst : isBytes st := fun b hb => hs b (List.mem_cons_of_mem _ hb)
      have hlen' : st.length = kt.length := by simpa using hlen
      simp only [List.zipWith]
      rw [ih st hlen' hkt hst]
      congr 1
      rw [xor_mod_eq hk0 hs0, xor_mod_eq hs0 (by
        have := Nat.xor_lt_two_pow (n := 8) (by simpa using hk0) (by simpa using hs0)
        simpa using this)]
      rw [Nat.xor_comm k s, ← Nat.xor_assoc, Nat.xor_self, Nat.zero_xor]

/-- C6: for every key and every equal-length random `share1`, combining the
two shares produced by `splitKeyXor` with `xorShares` returns exactly the
key; and `xorShares` fails with the mismatched-lengths error whenever the two
shares have different lengths. -/
theorem split_combine_roundtrip :
    (∀ (key share1 : List ℕ), share1.length = key.length → isBytes key → isBytes share1 →
       xorShares (splitKeyXor key share1).1 (splitKeyXor key share1).2 = Except.ok key) ∧
    (∀ s1 s2 : List ℕ, s1.length ≠ s2.length →
       xorShares s1 s2 = Except.error "Mismatched key share lengths") := by
  constructor
  · intro key share1 hlen hk hs
    have hlen2 : (List.zipWith (fun k s => (k ^^^ s) % 256) key share1).length = share1.length := by
      simp [hlen]
    simp only [splitKeyXor, xorShares, hlen2.symm, ne_eq, not_true_eq_false, if_neg,
      not_false_eq_true, if_false]
    exact congrArg Except.ok (zipWith_xor_cancel key share1 hlen hk hs)
  · intro s1 s2 hne
    simp [xorShares, hne]

theorem split_combine_roundtrip_witness :
    xorShares (splitKeyXor [170, 7] [255, 1]).1 (splitKeyXor [170, 7] [255, 1]).2 =
      Except.ok [170, 7] ∧
    xorShares [0] [] = Except.error "Mismatched key share lengths" :=
  ⟨split_combine_roundtrip.1 [170, 7] [255, 1] (by decide) (by norm_num [isBytes])
     (by norm_num [isBytes]),
   split_combine_roundtrip.2 [0] [] (by decide)⟩

/-!
Text encryption (`encryptSecret` / `decryptSecret` in `lib/crypto.ts`).

The plaintext string is a sequence of Unicode scalar values (naturals
`< 0x110000` outside the surrogate range).  `TextEncoder` is UTF-8 encoding,
modelled exactly; `TextDecoder` is modelled on well-formed UTF-8 input — the
only input the round trip exercises — returning `none` where the real
decoder would emit replacement characters.  The platform AES-GCM primitive
(`crypto.subtle.encrypt` / `decrypt`) is abstracted as a pair of functions
`enc`/`dec` of key, nonce and message; its correctness on the message at
hand is a hypothesis, discharged in the witness. -/

/-- UTF-8 encoding of one Unicode scalar value (arithmetic form: `/` and `%`
in place of shifts and masks). -/
def utf8EncodeChar (c : ℕ) : List ℕ :=
  if c < 128 then [c]
  else if c < 2048 then [192 + c / 64, 128 + c % 64]
  else if c < 65536 then [224 + c / 4096, 128 + c / 64 % 64, 128 + c % 64]
  else [240 + c / 262144, 128 + c / 4096 % 64, 128 + c / 64 % 64, 128 + c % 64]

/-- `TextEncoder.encode`: UTF-8 encoding of a scalar-value sequence. -/
def utf8Encode : List ℕ → List ℕ
  | [] => []
  | c :: t => utf8EncodeChar c ++ utf8Encode t

/-- Decode one UTF-8-encoded scalar: the lead byte selects the arity, the
continuation bytes contribute 6 bits each. -/
def utf8DecodeOne (b0 : ℕ) (rest : List ℕ) : Option (ℕ × List ℕ) :=
  if b0 < 128 then some (b0, rest)
  else if b0 < 224 then
    match rest with
    | b1 :: rest2 => some ((b0 - 192) * 64 + (b1 - 128), rest2)
    | [] => none
  else if b0 < 240 then
    match rest with
    | b1 :: b2 :: rest3 => some ((b0 - 224) * 4096 + (b1 - 128) * 64 + (b2 - 128), rest3)
    | _ => none
  else
    match rest with
    | b1 :: b2 :: b3 :: rest4 =>
      some ((b0 - 240) * 262144 + (b1 - 128) * 4096 + (b2 - 128) * 64 + (b3 - 128), rest4)
    | _ => none

/-- Fuelled decoding loop (each step consumes one scalar, so the input
length is enough fuel). -/
def utf8DecodeLoop : ℕ → List ℕ → Option (List ℕ)
  | 0, [] => some []
  | 0, _ :: _ => none
  | _ + 1, [] => some []
  | fuel + 1, b0 :: rest =>
    match utf8DecodeOne b0 rest with
    | some p => (utf8DecodeLoop fuel p.2).map (p.1 :: ·)
    | none => none

/-- `TextDecoder.decode` on well-formed UTF-8. -/
def utf8Decode (l : List ℕ) : Option (List ℕ) := utf8DecodeLoop l.length l

theorem utf8DecodeOne_encodeChar (c : ℕ) (hc : c < 1114112) (l : List ℕ) :
    ∃ b0 t, utf8EncodeChar c = b0 :: t ∧ utf8DecodeOne b0 (t ++ l) = some (c, l) := by
  by_cases h1 : c < 128
  · exact ⟨c, [], by simp [utf8EncodeChar, h1], by simp [utf8DecodeOne, h1]⟩
  · by_cases h2 : c < 2048
    · refine ⟨192 + c / 64, [128 + c % 64], by simp [utf8EncodeChar, h1, h2], ?_⟩
      have e1 : ¬ (192 + c / 64 < 128) := by omega
      have e2 : 192 + c / 64 < 224 := by omega
      simp only [utf8DecodeOne, if_neg e1, if_pos e2]
      refine congrArg some (Prod.ext ?_ rfl)
      show (192 + c / 64 - 192) * 64 + (128 + c % 64 - 128) = c
      omega
    · by_cases h3 : c < 65536
      · refine ⟨224 + c / 4096, [128 + c / 64 % 64, 128 + c % 64],
          by simp [utf8EncodeChar, h1, h2, h3], ?_⟩
        have e1 : ¬ (224 + c / 4096 < 128) := by omega
        have e2 : ¬ (224 + c / 4096 < 224) := by omega
        have e3 : 224 + c / 4096 < 240 := by omega
        simp only [utf8DecodeOne, if_neg e1, if_neg e2, if_pos e3]
        refine congrArg some (Prod.ext ?_ rfl)
        show (224 + c / 4096 - 224) * 4096 + (128 + c / 64 % 64 - 128) * 64 +
            (128 + c % 64 - 128) = c
        omega
      · refine ⟨240 + c / 262144, [128 + c / 4096 % 64, 128 + c / 64 % 64, 128 + c % 64],
          by simp [utf8EncodeChar, h1, h2, h3], ?_⟩
        have e1 : ¬ (240 + c / 262144 < 128) := by omega
        have e2 : ¬ (240 + c / 262144 < 224) := by omega
        have e3 : ¬ (240 + c / 262144 < 240) := by omega
        simp only [utf8DecodeOne, if_neg e1, if_neg e2, if_neg e3]
        refine congrArg some (Prod.ext ?_ rfl)
        show (240 + c / 262144 - 240) * 262144 + (128 + c / 4096 % 64 - 128) * 4096 +
            (128 + c / 64 % 64 - 128) * 64 + (128 + c % 64 - 128) = c
        omega

theorem utf8DecodeLoop_encode :
    ∀ (s : List ℕ) (fuel : ℕ), s.length ≤ fuel → (∀ c ∈ s, c < 1114112) →
      utf8DecodeLoop fuel (utf8Encode s) = some s := by
  intro s
  induction s with
  | nil =>
    intro fuel _ _
    cases fuel <;> rfl
  | cons c t ih =>
    intro fuel hf h
    obtain ⟨f, rfl⟩ : ∃ f, fuel = f + 1 := by
      cases fuel with
      | zero => simp at hf
      | succ f => exact ⟨f, rfl⟩
    obtain ⟨b0, tl, henc, hdec⟩ := utf8DecodeOne_encodeChar c (h c (by simp)) (utf8Encode t)
    have hsplit : utf8Encode (c :: t) = b0 :: (tl ++ utf8Encode t) := by
      rw [utf8Encode, henc]; simp
    rw [hsplit, utf8DecodeLoop, hdec]
    have ht : t.length ≤ f := by simp at hf; omega
    simp [ih f ht (fun x hx => h x (List.mem_cons_of_mem _ hx))]

theorem length_le_utf8Encode_length (s : List ℕ) : s.length ≤ (utf8Encode s).length := by
  induction s with
  | nil => simp [utf8Encode]
  | cons c t ih =>
    have h1 : 1 ≤ (utf8EncodeChar c).length := by
      unfold utf8EncodeChar
      split_ifs <;> simp
    simp only [utf8Encode, List.length_append, List.length_cons]
    omega

theorem utf8_roundtrip (s : List ℕ) (h : ∀ c ∈ s, c < 1114112) :
    utf8Decode (utf8Encode s) = some s :=
  utf8DecodeLoop_encode s (utf8Encode s).length (length_le_utf8Encode_length s) h

/-- A Unicode scalar value: what one position of a JavaScript string holds
once lone surrogates are excluded (`TextEncoder` never receives them). -/
def validScalar (c : ℕ) : Prop := c < 55296 ∨ (57344 ≤ c ∧ c < 1114112)

/-- The `EncryptedData` result of `encryptSecret`: ciphertext plus the IV and
exported raw key. -/
structure EncryptedData where
  ciphertext : List ℕ
  iv : List ℕ
  key : List ℕ
deriving DecidableEq

/-- `encryptSecret`: encodes the plaintext with `TextEncoder` and encrypts
with AES-GCM under the freshly generated key and 12-byte IV (both passed in
as the randomness), returning ciphertext, IV and exported key. -/
def encryptSecret (enc : List ℕ → List ℕ → List ℕ → List ℕ)
    (key iv plaintext : List ℕ) : EncryptedData :=
  { ciphertext := enc key iv (utf8Encode plaintext), iv := iv, key := key }

/-- `decryptSecret`: decrypts with AES-GCM and decodes with `TextDecoder`. -/
def decryptSecret (dec : List ℕ → List ℕ → List ℕ → List ℕ)
    (ciphertext key iv : List ℕ) : Option (List ℕ) :=
  utf8Decode (dec key iv ciphertext)

/-- C7: for every plaintext (of any length, including the empty one),
decrypting the ciphertext produced by `encryptSecret` with the same key and
IV returns exactly the plaintext, given that the AES-GCM primitive inverts
itself on the encoded message (the platform guarantee, taken as a
hypothesis). -/
theorem encrypt_decrypt_roundtrip
    (enc dec : List ℕ → List ℕ → List ℕ → List ℕ) (key iv plaintext : List ℕ)
    (hvalid : ∀ c ∈ plaintext, validScalar c)
    (hcipher : dec key iv (enc key iv (utf8Encode plaintext)) = utf8Encode plaintext) :
    decryptSecret dec (encryptSecret enc key iv plaintext).ciphertext key iv =
      some plaintext := by
  have hlt : ∀ c ∈ plaintext, c < 1114112 := by
    intro c hc
    rcases hvalid c hc with h | ⟨_, h⟩ <;> omega
  simp [decryptSecret, encryptSecret, hcipher, utf8_roundtrip plaintext hlt]

theorem encrypt_decrypt_roundtrip_witness :
    decryptSecret (fun _ _ c => c)
        (encryptSecret (fun _ _ m => m) [1] [2] [104, 233, 128293]).ciphertext [1] [2] =
      some [104, 233, 128293] :=
  encrypt_decrypt_roundtrip (fun _ _ m => m) (fun _ _ c => c) [1] [2] [104, 233, 128293]
    (by norm_num [validScalar]) rfl

/-!
File framing (`encryptFile` / `decryptFile` / `isEncryptedFile` in
`lib/crypto.ts`).  The metadata object `{ filename, type, size, timestamp }`
is serialized with the platform `JSON.stringify` and recovered with
`JSON.parse`; both are abstracted as a pair of functions `jsonStr` /
`jsonParse` on byte lists, with `jsonParse` returning `some` exactly when
the bytes are valid JSON metadata carrying string-typed `filename` and
`type` fields (the `typeof … === 'string'` checks of the source).  The
`type` field is named `mtype` here (`type` is a Lean keyword). -/

/-- The metadata header written by `encryptFile`. -/
structure FileMeta where
  filename : String
  mtype : String
  size : ℕ
  timestamp : ℚ
deriving DecidableEq

/-- A `File` as `encryptFile` consumes it: name, MIME type and content bytes
(`file.size` and `fileData.byteLength` are both `data.length`). -/
structure FileData where
  name : String
  mtype : String
  data : List ℕ
deriving DecidableEq

/-- `DataView.setUint32(0, n, true)` into four bytes (little endian,
truncating modulo `2^32`). -/
def u32le (n : ℕ) : List ℕ := [n % 256, n / 256 % 256, n / 65536 % 256, n / 16777216 % 256]

/-- `DataView.getUint32(0, true)` from four bytes (little endian; each slot
of a `Uint8Array` holds a value below 256, written explicitly). -/
def readU32le (b0 b1 b2 b3 : ℕ) : ℕ :=
  b0 % 256 + 256 * (b1 % 256) + 65536 * (b2 % 256) + 16777216 * (b3 % 256)

/-- The metadata object `encryptFile` serializes for a file at clock reading
`now = Date.now()`. -/
def fileMetaOf (f : FileData) (now : ℚ) : FileMeta :=
  ⟨f.name, f.mtype, f.data.length, now⟩

/-- The plaintext `combinedData` that `encryptFile` encrypts:
`u32le(metadataBytes.length) ++ metadataBytes ++ fileData`. -/
def fileFrame (jsonStr : FileMeta → List ℕ) (f : FileData) (now : ℚ) : List ℕ :=
  u32le (jsonStr (fileMetaOf f now)).length ++ jsonStr (fileMetaOf f now) ++ f.data

/-- The `EncryptedFile` result of `encryptFile`. -/
structure EncryptedFileR where
  ciphertext : List ℕ
  iv : List ℕ
  key : List ℕ
  filename : String
  mtype : String
  size : ℕ
deriving DecidableEq

/-- `encryptFile`: frames the metadata and file bytes, encrypts the frame
with AES-GCM under the generated key/IV, and reports name, type and size
alongside. -/
def encryptFile (enc : List ℕ → List ℕ → List ℕ → List ℕ)
    (jsonStr : FileMeta → List ℕ) (key iv : List ℕ) (f : FileData) (now : ℚ) :
    EncryptedFileR :=
  { ciphertext := enc key iv (fileFrame jsonStr f now), iv := iv, key := key,
    filename := f.name, mtype := f.mtype, size := f.data.length }

/-- `decryptFile`: decrypts, reads the 4-byte little-endian metadata length,
parses the metadata slice and returns the remaining bytes with the parsed
name, type and size.  A plaintext shorter than 4 bytes makes the `DataView`
construction throw, modelled as `none`. -/
def decryptFile (dec : List ℕ → List ℕ → List ℕ → List ℕ)
    (jsonParse : List ℕ → Option FileMeta) (ciphertext key iv : List ℕ) :
    Option (List ℕ × String × String × ℕ) :=
  match dec key iv ciphertext with
  | b0 :: b1 :: b2 :: b3 :: rest =>
    match jsonParse (rest.take (readU32le b0 b1 b2 b3)) with
    | some meta => some (rest.drop (readU32le b0 b1 b2 b3), meta.filename, meta.mtype, meta.size)
    | none => none
  | _ => none

/-- `isEncryptedFile` (the spec's `looksLikeFramedFile`): total heuristic
that reads the 4-byte length prefix, bounds-checks it
(`metadataLength > byteLength - 4 || metadataLength <= 0`) and tries to
parse the metadata slice; any failure yields `false` (the body is wrapped in
`try … catch { return false }`). -/
def isEncryptedFile (jsonParse : List ℕ → Option FileMeta) (data : List ℕ) : Bool :=
  match data with
  | b0 :: b1 :: b2 :: b3 :: rest =>
    if rest.length < readU32le b0 b1 b2 b3 ∨ readU32le b0 b1 b2 b3 = 0 then false
    else
      match jsonParse (rest.take (readU32le b0 b1 b2 b3)) with
      | some _ => true
      | none => false
  | _ => false

theorem isEncryptedFile_cons (jsonParse : List ℕ → Option FileMeta)
    (b0 b1 b2 b3 : ℕ) (rest : List ℕ) :
    isEncryptedFile jsonParse (b0 :: b1 :: b2 :: b3 :: rest) =
      if rest.length < readU32le b0 b1 b2 b3 ∨ readU32le b0 b1 b2 b3 = 0 then false
      else
        match jsonParse (rest.take (readU32le b0 b1 b2 b3)) with
        | some _ => true
        | none => false := rfl

theorem fileFrame_cons (jsonStr : FileMeta → List ℕ) (f : FileData) (now : ℚ) :
    fileFrame jsonStr f now =
      ((jsonStr (fileMetaOf f now)).length % 256) ::
      ((jsonStr (fileMetaOf f now)).length / 256 % 256) ::
      ((jsonStr (fileMetaOf f now)).length / 65536 % 256) ::
      ((jsonStr (fileMetaOf f now)).length / 16777216 % 256) ::
      (jsonStr (fileMetaOf f now) ++ f.data) := by
  simp [fileFrame, u32le]

theorem readU32le_u32le {n : ℕ} (h : n < 4294967296) :
    readU32le (n % 256) (n / 256 % 256) (n / 65536 % 256) (n / 16777216 % 256) = n := by
  simp only [readU32le]
  omega

/-- C8: `encryptFile` encrypts exactly the frame
`u32_LE(metadataLength) ++ metadataJSONBytes ++ rawFileBytes`, where the
metadata carries the file's name, MIME type and size; and `decryptFile` on
the produced ciphertext with the same key and IV returns byte-identical file
data together with the identical name, MIME type and size.  Hypotheses: the
AES-GCM primitive inverts itself on this frame, the JSON codec recovers this
metadata object, and the metadata is shorter than `2^32` bytes. -/
theorem encrypt_decrypt_file_roundtrip
    (enc dec : List ℕ → List ℕ → List ℕ → List ℕ)
    (jsonStr : FileMeta → List ℕ) (jsonParse : List ℕ → Option FileMeta)
    (key iv : List ℕ) (f : FileData) (now : ℚ)
    (hjson : jsonParse (jsonStr (fileMetaOf f now)) = some (fileMetaOf f now))
    (hlen : (jsonStr (fileMetaOf f now)).length < 4294967296)
    (hcipher : dec key iv (enc key iv (fileFrame jsonStr f now)) = fileFrame jsonStr f now) :
    (encryptFile enc jsonStr key iv f now).ciphertext =
      enc key iv (u32le (jsonStr (fileMetaOf f now)).length ++
        jsonStr (fileMetaOf f now) ++ f.data) ∧
    decryptFile dec jsonParse (encryptFile enc jsonStr key iv f now).ciphertext key iv =
      some (f.data, f.name, f.mtype, f.data.length) := by
  constructor
  · rfl
  · have hread := readU32le_u32le hlen
    show decryptFile dec jsonParse (enc key iv (fileFrame jsonStr f now)) key iv = _
    unfold decryptFile
    rw [hcipher, fileFrame_cons]
    simp only [hread, List.take_left, List.drop_left, hjson]
    simp [fileMetaOf]

theorem encrypt_decrypt_file_roundtrip_witness :
    decryptFile (fun _ _ c => c) (fun _ => some ⟨"a.txt", "text/plain", 2, 5⟩)
        (encryptFile (fun _ _ m => m) (fun _ => [123, 125]) [1] [2]
          ⟨"a.txt", "text/plain", [7, 8]⟩ 5).ciphertext [1] [2] =
      some ([7, 8], "a.txt", "text/plain", 2) :=
  (encrypt_decrypt_file_roundtrip (fun _ _ m => m) (fun _ _ c => c) (fun _ => [123, 125])
    (fun _ => some ⟨"a.txt", "text/plain", 2, 5⟩) [1] [2] ⟨"a.txt", "text/plain", [7, 8]⟩ 5
    rfl (by norm_num) rfl).2

/-- C9: (1) `isEncryptedFile` returns `true` on every plaintext produced by
the file framing of `encryptFile` (whenever the JSON codec recovers the
metadata, the metadata is non-empty and shorter than `2^32` bytes); (2) it
returns `true` only for byte sequences consisting of a four-byte
little-endian length prefix whose value `len` is positive, at most the
number of remaining bytes, followed by a `len`-byte slice that parses as
JSON metadata with string-typed name and MIME-type fields; and (3) it
returns `false` — it is a total function, never throwing — on every byte
sequence shorter than 4 bytes. -/
theorem isEncryptedFile_spec (jsonStr : FileMeta → List ℕ)
    (jsonParse : List ℕ → Option FileMeta) :
    (∀ (f : FileData) (now : ℚ),
       jsonParse (jsonStr (fileMetaOf f now)) = some (fileMetaOf f now) →
       0 < (jsonStr (fileMetaOf f now)).length →
       (jsonStr (fileMetaOf f now)).length < 4294967296 →
       isEncryptedFile jsonParse (fileFrame jsonStr f now) = true) ∧
    (∀ data : List ℕ, isEncryptedFile jsonParse data = true →
       ∃ b0 b1 b2 b3 rest meta, data = b0 :: b1 :: b2 :: b3 :: rest ∧
         0 < readU32le b0 b1 b2 b3 ∧ readU32le b0 b1 b2 b3 ≤ rest.length ∧
         jsonParse (rest.take (readU32le b0 b1 b2 b3)) = some meta) ∧
    (∀ data : List ℕ, data.length < 4 → isEncryptedFile jsonParse data = false) := by
  refine ⟨?_, ?_, ?_⟩
  · intro f now hjson hpos hlen
    have hread := readU32le_u32le hlen
    rw [fileFrame_cons, isEncryptedFile_cons]
    rw [if_neg (by
      simp only [hread, List.length_append]
      omega)]
    simp only [hread, List.take_left, hjson]
  · intro data h
    rcases data with _ | ⟨b0, _ | ⟨b1, _ | ⟨b2, _ | ⟨b3, rest⟩⟩⟩⟩
    · simp [isEncryptedFile] at h
    · simp [isEncryptedFile] at h
    · simp [isEncryptedFile] at h
    · simp [isEncryptedFile] at h
    · rw [isEncryptedFile_cons] at h
      by_cases hcond : rest.length < readU32le b0 b1 b2 b3 ∨ readU32le b0 b1 b2 b3 = 0
      · rw [if_pos hcond] at h
        exact absurd h (by simp)
      · rw [if_neg hcond] at h
        push_neg at hcond
        cases hp : jsonParse (rest.take (readU32le b0 b1 b2 b3)) with
        | none => rw [hp] at h; exact absurd h (by simp)
        | some meta =>
          exact ⟨b0, b1, b2, b3, rest, meta, rfl, Nat.pos_of_ne_zero hcond.2, hcond.1, hp⟩
  · intro data hlen
    rcases data with _ | ⟨b0, _ | ⟨b1, _ | ⟨b2, _ | ⟨b3, rest⟩⟩⟩⟩
    · rfl
    · rfl
    · rfl
    · rfl
    · exact absurd hlen (by simp)

theorem isEncryptedFile_spec_witness :
    isEncryptedFile (fun _ => some ⟨"a.txt", "text/plain", 2, 5⟩)
      (fileFrame (fun _ => [123, 125]) ⟨"a.txt", "text/plain", [7, 8]⟩ 5) = true ∧
    isEncryptedFile (fun _ => some ⟨"a.txt", "text/plain", 2, 5⟩) [1, 2] = false :=
  ⟨(isEncryptedFile_spec (fun _ => [123, 125]) (fun _ => some ⟨"a.txt", "text/plain", 2, 5⟩)).1
     ⟨"a.txt", "text/plain", [7, 8]⟩ 5 rfl (by norm_num) (by norm_num),
   (isEncryptedFile_spec (fun _ => [123, 125]) (fun _ => some ⟨"a.txt", "text/plain", 2, 5⟩)).2.2
     [1, 2] (by norm_num)⟩

end Flamelink
